import Mathlib

/-!
Verification development for the well_log_toolkit repository.

The numeric model is exact rationals (`ℚ`); a float64 value that may be NaN
is embedded as `Option ℚ` with `none` standing for NaN.  Statistics dicts
are embedded as association lists `List (String × Option ℚ)` so that the key
set is part of the statement.  Standard deviations in the source are square
roots of a variance; since the square root only matters through its
definedness (NaN-ness) in the claims below, the embedding carries the
variance (the square of the source's result) in the `std` slots, and returns
`none` where `np.sqrt` receives a negative variance (which is possible for
the weighted kernel when weights are negative) and hence yields NaN.
-/

namespace WellLog

/-- Select the entries of `l` at the positions where the boolean mask `m` is
true (the embedding of numpy boolean-mask indexing `l[m]`). -/
def boolSelect {α : Type} (l : List α) (m : List Bool) : List α :=
  (l.zip m).filterMap (fun p => if p.2 then some p.1 else none)

/-- Drop the NaN entries of a value array (numpy `l[~isnan(l)]`). -/
def validOnly (l : List (Option ℚ)) : List ℚ := l.filterMap id

/-- Pairs (value, weight) at positions where neither is NaN: the embedding of
the mask `~isnan(values) & ~isnan(weights)` shared by the weighted kernels. -/
def validPairs (values weights : List (Option ℚ)) : List (ℚ × ℚ) :=
  (values.zip weights).filterMap (fun p =>
    match p with
    | (some v, some w) => some (v, w)
    | _ => none)

/-- Helper for `cumsum`: running partial sums with accumulator `acc`. -/
def cumAux (acc : ℚ) : List ℚ → List ℚ
  | [] => []
  | x :: xs => (acc + x) :: cumAux (acc + x) xs

/-- The embedding of `np.cumsum`. -/
def cumsum (l : List ℚ) : List ℚ := cumAux 0 l

/-- Boolean order on `ℚ` used as the comparator handed to `mergeSort`. -/
def ratLe (a b : ℚ) : Bool := decide (a ≤ b)

/-- The embedding of `np.searchsorted(l, v)` with the default side='left' on a
sorted list: the first index whose entry is ≥ `v`, or `l.length`. -/
def searchsortedLeft (l : List ℚ) (v : ℚ) : ℕ :=
  (l.findIdx? (fun x => ratLe v x)).getD l.length

/-- Minimum of a value list, `none` when empty (np.min guarded by len > 0). -/
def listMin : List ℚ → Option ℚ
  | [] => none
  | x :: xs => some (xs.foldl min x)

/-- Maximum of a value list, `none` when empty (np.max guarded by len > 0). -/
def listMax : List ℚ → Option ℚ
  | [] => none
  | x :: xs => some (xs.foldl max x)

/-! ## statistics.py -/

/-- Helper for `compute_intervals`: the loop over the interior points.  The
first argument is the previous depth sample; the singleton case is the last
point, which gets half the interval from the previous point. -/
def intervalsAux (prev : ℚ) : List ℚ → List ℚ
  | [] => []
  | [x] => [(x - prev) / 2]
  | x :: y :: rest => ((y + x) / 2 - (x + prev) / 2) :: intervalsAux x (y :: rest)

/-- The embedding of `statistics.compute_intervals`: midpoint-rule interval
thickness per depth sample; `[]` for an empty array and `[1.0]` for a single
sample. -/
def compute_intervals : List ℚ → List ℚ
  | [] => []
  | [_] => [1]
  | d0 :: d1 :: rest => (d1 - d0) / 2 :: intervalsAux d0 (d1 :: rest)

/-- The embedding of `statistics.weighted_mean`. -/
def weighted_mean (values weights : List (Option ℚ)) : Option ℚ :=
  let pairs := validPairs values weights
  if pairs.length = 0 ∨ (pairs.map Prod.snd).sum = 0 then none
  else some ((pairs.map (fun p => p.1 * p.2)).sum / (pairs.map Prod.snd).sum)

/-- The embedding of `statistics.weighted_sum`. -/
def weighted_sum (values weights : List (Option ℚ)) : Option ℚ :=
  let pairs := validPairs values weights
  if pairs.length = 0 then none
  else some ((pairs.map (fun p => p.1 * p.2)).sum)

/-- The variance computed inside `statistics.weighted_std` before the final
`np.sqrt`: the weighted sum of squared deviations from `weighted_mean` over
the valid pairs, divided by the total valid weight.  The `none` branch of the
match (weighted_mean NaN) defaults to 0; it is unreachable past the guard of
`weighted_std`, whose conditions imply the mean is defined. -/
def weighted_variance (values weights : List (Option ℚ)) : ℚ :=
  let pairs := validPairs values weights
  match weighted_mean values weights with
  | none => 0
  | some m => (pairs.map (fun p => p.2 * (p.1 - m) ^ 2)).sum /
      (pairs.map Prod.snd).sum

/-- The embedding of `statistics.weighted_std`, carrying the variance (the
square of the source's result, `ℚ` having no square root) when it is
nonnegative; when the variance is negative — possible when weights are
negative — the source's `float(np.sqrt(variance))` is NaN, embedded as
`none`. -/
def weighted_std_sq (values weights : List (Option ℚ)) : Option ℚ :=
  let pairs := validPairs values weights
  if pairs.length < 2 ∨ (pairs.map Prod.snd).sum = 0 then none
  else if weighted_variance values weights < 0 then none
  else some (weighted_variance values weights)

/-- The embedding of `statistics.weighted_percentile`.  `np.argsort` is
embedded as `mergeSort` on the valid (value, weight) pairs ordered by value;
when values tie, the interpolation result does not depend on the order of the
tied pairs, so the choice of a stable sort is immaterial. -/
def weighted_percentile (values weights : List (Option ℚ)) (p : ℚ) : Option ℚ :=
  let pairs := validPairs values weights
  if pairs.length = 0 then none
  else
    let sorted := pairs.mergeSort (fun a b => ratLe a.1 b.1)
    let sortedValues := sorted.map Prod.fst
    let cw := cumsum (sorted.map Prod.snd)
    let total := cw.getLastD 0
    let target := (p / 100) * total
    let idx := searchsortedLeft cw target
    if idx = 0 then some (sortedValues.headD 0)
    else if sortedValues.length ≤ idx then some (sortedValues.getLastD 0)
    else
      let wBelow := cw.getD (idx - 1) 0
      let wAbove := cw.getD idx 0
      let fraction := (target - wBelow) / (wAbove - wBelow)
      some (sortedValues.getD (idx - 1) 0 +
        fraction * (sortedValues.getD idx 0 - sortedValues.getD (idx - 1) 0))

/-- The embedding of `statistics.arithmetic_mean`. -/
def arithmetic_mean (values : List (Option ℚ)) : Option ℚ :=
  let valid := validOnly values
  if valid.length = 0 then none else some (valid.sum / valid.length)

/-- The embedding of `statistics.arithmetic_sum`. -/
def arithmetic_sum (values : List (Option ℚ)) : Option ℚ :=
  let valid := validOnly values
  if valid.length = 0 then none else some valid.sum

/-- The embedding of `statistics.arithmetic_std`, carrying the variance (the
square of the source's result, see the module comment).  Here the variance is
a mean of squares, never negative, so the source's final `np.sqrt` is always
defined and NaN-ness is decided by the guard alone. -/
def arithmetic_std_sq (values : List (Option ℚ)) : Option ℚ :=
  let valid := validOnly values
  if valid.length < 2 then none
  else some ((valid.map (fun x => (x - valid.sum / valid.length) ^ 2)).sum /
    valid.length)

/-! ## Specification-side formulations (for refinement-style claims) -/

/-- The midpoint-rule interval list exactly as the specification words it,
indexwise: interval 0 is half the gap to the next sample, an interior interval
is the difference of the two neighbouring midpoints, the last interval is half
the gap from the previous sample. -/
def specMidpointIntervals (d : List ℚ) : List ℚ :=
  (List.range d.length).map (fun i =>
    if i = 0 then (d.getD 1 0 - d.getD 0 0) / 2
    else if i = d.length - 1 then (d.getD i 0 - d.getD (i - 1) 0) / 2
    else (d.getD (i + 1) 0 + d.getD i 0) / 2 - (d.getD i 0 + d.getD (i - 1) 0) / 2)

/-- The ordinary median as the specification means it: sort the valid values
ascending; take the middle one for an odd count, the average of the two middle
ones for an even count, NaN for an empty series. -/
def specMedian (values : List (Option ℚ)) : Option ℚ :=
  let sorted := (validOnly values).mergeSort ratLe
  let n := sorted.length
  if n = 0 then none
  else if n % 2 = 1 then some (sorted.getD (n / 2) 0)
  else some ((sorted.getD (n / 2 - 1) 0 + sorted.getD (n / 2) 0) / 2)

/-! ## property.py: the data model -/

/-- The data of one stored log property: what `Well._properties` holds per
sanitized name, and also what a secondary (filter) property carries.  In the
source a secondary is a full `Property` object whose own secondary list is
empty; its payload is exactly this record. -/
structure PropRecord where
  name : String
  originalName : String
  depth : List ℚ
  values : List (Option ℚ)
  unit : String
  ptype : String
  labels : Option (List (Int × String))
  sourceName : Option String
deriving DecidableEq

/-- The part of `Well` that `Property.filter` consults: the insertion-ordered
mapping from sanitized property name to property. -/
structure Well where
  name : String
  properties : List (String × PropRecord)
deriving DecidableEq

/-- A `Property`: a named, typed series over depth with attached secondary
filter properties and a back-reference to its owning well (embedded as an
explicit optional handle, as the spec's design notes prescribe for the
weak reference). -/
structure Property where
  name : String
  originalName : String
  depth : List ℚ
  values : List (Option ℚ)
  unit : String
  ptype : String
  labels : Option (List (Int × String))
  sourceName : Option String
  parentWell : Option Well
  secondaries : List PropRecord

/-- The null-sentinel replacement performed by `Property.__init__`: values
within 1e-6 of the null value become NaN. -/
def cleanValues (nullValue : ℚ) (values : List (Option ℚ)) : List (Option ℚ) :=
  values.map (fun v =>
    match v with
    | none => none
    | some x => if |x - nullValue| < 1 / 1000000 then none else some x)

/-- Modelled from the spec: `utils.sanitize_property_name` is absent from
src/ (only imported there); per §6 it is a pure function mapping a display
name to an identifier-safe name, replacing every character that is not
alphanumeric or an underscore by an underscore. -/
def sanitizeName (s : String) : String :=
  String.mk (s.data.map (fun c => if c.isAlphanum || c == '_' then c else '_'))

/-- Association-list lookup by key (the embedding of a dict lookup). -/
def lookupName (props : List (String × PropRecord)) (n : String) :
    Option PropRecord :=
  (props.find? (fun p => p.1 == n)).map Prod.snd

/-- The embedding of `Well.get_property`: try the name as given, then its
sanitized form; `none` embeds the PropertyNotFoundError raise. -/
def Well.getProp (w : Well) (n : String) : Option PropRecord :=
  match lookupName w.properties n with
  | some p => some p
  | none => lookupName w.properties (sanitizeName n)

/-! ## property.py: resampling -/

/-- The two interpolation methods the filtering engine requests. -/
inductive Method where
  | linear
  | nearest
deriving DecidableEq

/-- Modelled from the spec: scipy.interpolate.interp1d is external to the
repository.  Nearest-neighbour interpolation evaluates to the value of the
data point closest in depth to the query (the earlier point at exact ties);
per §8 a single data point answers every query with its value. -/
def nearestEval (pts : List (ℚ × ℚ)) (q : ℚ) : Option ℚ :=
  match pts with
  | [] => none
  | p :: rest =>
    some ((rest.foldl (fun best c =>
      if |c.1 - q| < |best.1 - q| then c else best) p).2)

/-- Helper for `linearEval`: walk the sorted data points to the bracketing
segment. -/
def linearSeg : List (ℚ × ℚ) → ℚ → Option ℚ
  | [], _ => none
  | [p], q => if p.1 = q then some p.2 else none
  | p1 :: p2 :: rest, q =>
    if q < p1.1 then none
    else if q ≤ p2.1 then
      if p1.1 = p2.1 then some p2.2
      else some (p1.2 + (q - p1.1) * (p2.2 - p1.2) / (p2.1 - p1.1))
    else linearSeg (p2 :: rest) q

/-- Modelled from the spec: interp1d kind='linear' with bounds_error=False and
fill_value=nan — linear interpolation between the bracketing data points,
NaN outside the bounds of the data (§4.1). -/
def linearEval (pts : List (ℚ × ℚ)) (q : ℚ) : Option ℚ :=
  linearSeg (pts.mergeSort (fun a b => ratLe a.1 b.1)) q

/-- Dispatch on the interpolation method. -/
def methodEval : Method → List (ℚ × ℚ) → ℚ → Option ℚ
  | Method.nearest, pts, q => nearestEval pts q
  | Method.linear, pts, q => linearEval pts q

/-- The embedding of `Property._resample_to_grid`: drop NaN source values;
zero valid points left → an all-NaN array of the new grid's length; one valid
point left → the method is forced to nearest; otherwise apply the requested
interpolant (modelled from the spec, see `methodEval`) to every new grid
point. -/
def resample_to_grid (oldDepth : List ℚ) (oldValues : List (Option ℚ))
    (newDepth : List ℚ) (method : Method) : List (Option ℚ) :=
  let pts := (oldDepth.zip oldValues).filterMap
    (fun p => p.2.map (fun v => (p.1, v)))
  if pts.length = 0 then newDepth.map (fun _ => none)
  else
    let m := if pts.length = 1 then Method.nearest else method
    newDepth.map (fun q => methodEval m pts q)

/-! ## property.py: filter -/

/-- Modelled from the spec: the error taxonomy of exceptions.py, which is
absent from src/ (only imported there).  The not-found error carries the
well's available property names, which the source enumerates in the message
text. -/
inductive FilterError where
  | notFoundNoWell (propName : String)
  | notFound (propName : String) (available : List String)
  | typeError (propName : String) (actualType : String)
deriving DecidableEq

/-- The embedding of `Property.filter`: resolve the discrete property in the
parent well, demand type 'discrete', resample its values onto the calling
property's depth grid with nearest-neighbour interpolation, and build a new
Property with the same depth grid and the new secondary appended.  The two
`cleanValues` applications embed the null replacement the `Property`
constructor performs on both new objects (null_value = -999.25). -/
def Property.filter (p : Property) (propertyName : String) :
    Except FilterError Property :=
  match p.parentWell with
  | none => Except.error (FilterError.notFoundNoWell p.name)
  | some w =>
    match w.getProp propertyName with
    | none =>
      Except.error (FilterError.notFound propertyName (w.properties.map Prod.fst))
    | some dp =>
      if dp.ptype ≠ "discrete" then
        Except.error (FilterError.typeError propertyName dp.ptype)
      else
        let interpolated :=
          resample_to_grid dp.depth dp.values p.depth Method.nearest
        let newSec : PropRecord :=
          { name := dp.name, originalName := dp.originalName,
            depth := p.depth,
            values := cleanValues (-(999.25 : ℚ)) interpolated,
            unit := dp.unit, ptype := dp.ptype, labels := dp.labels,
            sourceName := dp.sourceName }
        Except.ok
          { name := p.name, originalName := p.originalName,
            depth := p.depth,
            values := cleanValues (-(999.25 : ℚ)) p.values,
            unit := p.unit, ptype := p.ptype, labels := p.labels,
            sourceName := p.sourceName, parentWell := p.parentWell,
            secondaries := p.secondaries ++ [newSec] }

/-! ## property.py: statistics and grouping -/

/-- The embedding of `Property._compute_stats` (self.depth, self.values passed
explicitly): the flat statistics dict for the samples selected by a boolean
mask, as an association list in the source's key order.  The std slot carries
the variance (see module comment); np.std is applied whenever at least one
valid value remains. -/
def computeStats (depth : List ℚ) (values : List (Option ℚ))
    (mask : List Bool) : List (String × Option ℚ) :=
  let vsel := boolSelect values mask
  let valid := vsel.filterMap id
  let depthInterval := boolSelect depth mask
  let thickness : ℚ :=
    if 1 < depthInterval.length then
      depthInterval.getLastD 0 - depthInterval.headD 0
    else 0
  [("mean", if 0 < valid.length then some (valid.sum / valid.length) else none),
   ("sum", if 0 < valid.length then some valid.sum else none),
   ("count", some ((valid.length : ℚ))),
   ("depth_samples", some ((mask.count true : ℚ))),
   ("depth_thickness", some thickness),
   ("min", listMin valid),
   ("max", listMax valid),
   ("std", if 0 < valid.length then
      some ((valid.map (fun x => (x - valid.sum / valid.length) ^ 2)).sum /
        valid.length)
    else none)]

/-- Dict-entry lookup in a statistics association list. -/
def statGet (s : List (String × Option ℚ)) (k : String) : Option (Option ℚ) :=
  (s.find? (fun e => e.1 == k)).map Prod.snd

/-- The embedding of `np.unique` over the non-NaN entries already filtered
out: sorted ascending and duplicate-free. -/
def npUnique (l : List ℚ) : List ℚ := (l.mergeSort ratLe).dedup

/-- Rounding half-to-even, used to embed the %.2f formatting of group keys. -/
def roundHalfEven (x : ℚ) : ℤ :=
  let f := Int.floor x
  let frac := x - f
  if frac < 1 / 2 then f
  else if 1 / 2 < frac then f + 1
  else if f % 2 = 0 then f else f + 1

/-- Render a number of hundredths as a two-decimal string (%.2f body). -/
def twoDec (c : ℤ) : String :=
  let sign := if c < 0 then "-" else ""
  let a := c.natAbs
  sign ++ toString (a / 100) ++ "." ++
    (if a % 100 < 10 then "0" else "") ++ toString (a % 100)

/-- The group-key formatting of `Property._recursive_group`: the label when
the value is an integer with a label mapping entry, else name_int for exact
integers, else name_value with two decimals. -/
def keyFor (name : String) (labels : Option (List (Int × String))) (v : ℚ) :
    String :=
  if v.den = 1 then
    match labels.bind
        (fun ls => (ls.find? (fun e => e.1 == v.num)).map Prod.snd) with
    | some lab => lab
    | none => name ++ "_" ++ toString v.num
  else name ++ "_" ++ twoDec (roundHalfEven (v * 100))

/-- The grouped-statistics result: a statistics dict at a leaf, or a mapping
from group key to sub-result (the spec's Leaf/Branch discriminated node). -/
inductive GroupResult where
  | stats (s : List (String × Option ℚ))
  | group (branches : List (String × GroupResult))

/-- The embedding of `Property._recursive_group`, structured over the list of
remaining secondary properties (the source indexes them by position): with no
filters left, the flat statistics for the mask; otherwise the unique non-NaN
filter values under the current mask, each grouping a recursive call under
the conjunction of the mask with exact equality against that value; with no
valid unique value the flat statistics for the current mask. -/
def recursiveGroup (depth : List ℚ) (values : List (Option ℚ)) :
    List PropRecord → List Bool → GroupResult
  | [], mask => GroupResult.stats (computeStats depth values mask)
  | f :: rest, mask =>
    let fvals := boolSelect f.values mask
    let uniq := npUnique (fvals.filterMap id)
    if uniq.isEmpty then GroupResult.stats (computeStats depth values mask)
    else
      GroupResult.group (uniq.map (fun v =>
        (keyFor f.name f.labels v,
         recursiveGroup depth values rest
           (List.zipWith (fun b fv => b && decide (fv = some v))
             mask f.values))))

/-- The embedding of `Property.sums_avg`: flat statistics over the all-true
mask with no secondaries, otherwise the recursive grouping starting from the
all-true mask. -/
def Property.sums_avg (p : Property) : GroupResult :=
  if p.secondaries.isEmpty then
    GroupResult.stats (computeStats p.depth p.values (p.depth.map (fun _ => true)))
  else recursiveGroup p.depth p.values p.secondaries (p.depth.map (fun _ => true))

/-- Branch lookup in a grouped result (`none` at a leaf or a missing key). -/
def branchGet (t : GroupResult) (k : String) : Option GroupResult :=
  match t with
  | GroupResult.stats _ => none
  | GroupResult.group bs => (bs.find? (fun b => b.1 == k)).map Prod.snd

/-- Leaf statistics lookup two levels deep in a grouped result. -/
def leafStats2 (t : GroupResult) (k1 k2 : String) :
    Option (List (String × Option ℚ)) :=
  match branchGet t k1 with
  | none => none
  | some t1 =>
    match branchGet t1 k2 with
    | some (GroupResult.stats s) => some s
    | _ => none

/-- Specification-side description of the leaf class for claim C1: the valid
primary values at exactly the samples where the first filter equals z and the
second equals n. -/
def classValues (main zone ntg : List (Option ℚ)) (z n : ℚ) : List ℚ :=
  (main.zip (zone.zip ntg)).filterMap (fun t =>
    if t.2.1 = some z ∧ t.2.2 = some n then t.1 else none)

/-! ## Multi-well ambiguity resolution (spec §4.5) -/

/-- Modelled from the spec: the source-aware property store of §4.5.  The
implementation (per-source property dicts on a well and the nested flag on
statistics requests) is not under src/ — only its tests exercise it — so the
well is modelled as an ordered list of (source name, that source's property
mapping). -/
structure SourcedWell where
  name : String
  sources : List (String × List (String × PropRecord))

/-- Result of a direct-name statistics request on a sourced well. -/
inductive StatResult where
  | missing
  | direct (r : GroupResult)
  | bySource (rs : List (String × GroupResult))

/-- Flat statistics of one stored property over its whole depth range. -/
def recordStats (pr : PropRecord) : GroupResult :=
  GroupResult.stats
    (computeStats pr.depth pr.values (pr.depth.map (fun _ => true)))

/-- The sources of a well that carry a property of the given name, with the
property each carries. -/
def sourceHits (w : SourcedWell) (propName : String) :
    List (String × PropRecord) :=
  w.sources.filterMap (fun s =>
    (lookupName s.2 propName).map (fun pr => (s.1, pr)))

/-- Modelled from the spec (§4.5): a direct-name statistics request returns a
source-keyed mapping when the name exists under two or more sources or when
nested mode is forced, and the single property's statistics directly when the
name is unique and nested mode is off. -/
def statsRequest (w : SourcedWell) (propName : String) (nested : Bool) :
    StatResult :=
  match sourceHits w propName with
  | [] => StatResult.missing
  | [h] =>
    if nested then StatResult.bySource [(h.1, recordStats h.2)]
    else StatResult.direct (recordStats h.2)
  | hs => StatResult.bySource (hs.map (fun h => (h.1, recordStats h.2)))

/-- The secondary record Property.filter builds from a looked-up discrete
property: the discrete property's metadata with the caller's depth grid and
the resampled (and null-cleaned) values. -/
def secOf (dp : PropRecord) (grid : List ℚ) (vals : List (Option ℚ)) :
    PropRecord :=
  { name := dp.name, originalName := dp.originalName, depth := grid,
    values := vals, unit := dp.unit, ptype := dp.ptype,
    labels := dp.labels, sourceName := dp.sourceName }

/-- The property Property.filter returns: the caller with (null-cleaned)
values and a new secondary list. -/
def withSecondaries (p : Property) (vals : List (Option ℚ))
    (secs : List PropRecord) : Property :=
  { name := p.name, originalName := p.originalName, depth := p.depth,
    values := vals, unit := p.unit, ptype := p.ptype, labels := p.labels,
    sourceName := p.sourceName, parentWell := p.parentWell,
    secondaries := secs }

/-! ## Concrete fixtures used by witnesses -/

/-- A discrete Zone log on the grid [0,1,2,3] with codes 0,0,1,1. -/
def zoneRec : PropRecord :=
  { name := "Zone", originalName := "Zone", depth := [0, 1, 2, 3],
    values := [some 0, some 0, some 1, some 1], unit := "",
    ptype := "discrete", labels := none, sourceName := some "log.las" }

/-- A discrete NTG flag on the grid [0,1,2,3] with codes 0,1,0,1. -/
def ntgRec : PropRecord :=
  { name := "NTG", originalName := "NTG", depth := [0, 1, 2, 3],
    values := [some 0, some 1, some 0, some 1], unit := "",
    ptype := "discrete", labels := none, sourceName := some "log.las" }

/-- A continuous porosity log on the grid [0,1,2,3]. -/
def phieRec : PropRecord :=
  { name := "PHIE", originalName := "PHIE", depth := [0, 1, 2, 3],
    values := [some 1, some 2, some 5, some 10], unit := "v/v",
    ptype := "continuous", labels := none, sourceName := some "log.las" }

/-- A well holding the three fixture logs. -/
def wellEx : Well :=
  { name := "W", properties :=
      [("PHIE", phieRec), ("Zone", zoneRec), ("NTG", ntgRec)] }

/-- The porosity log as a Property owned by the fixture well. -/
def phieProp : Property :=
  { name := "PHIE", originalName := "PHIE", depth := [0, 1, 2, 3],
    values := [some 1, some 2, some 5, some 10], unit := "v/v",
    ptype := "continuous", labels := none, sourceName := some "log.las",
    parentWell := some wellEx, secondaries := [] }

/-- The expected result of `phieProp.filter "Zone"`: same grid, the Zone
values resampled (identically, since the grids agree) as one secondary. -/
def filteredPhie : Property :=
  { name := "PHIE", originalName := "PHIE", depth := [0, 1, 2, 3],
    values := [some 1, some 2, some 5, some 10], unit := "v/v",
    ptype := "continuous", labels := none, sourceName := some "log.las",
    parentWell := some wellEx, secondaries :=
      [{ name := "Zone", originalName := "Zone", depth := [0, 1, 2, 3],
         values := [some 0, some 0, some 1, some 1], unit := "",
         ptype := "discrete", labels := none, sourceName := some "log.las" }] }

/-- A synthetically constructed property with no owning-well reference. -/
def orphanProp : Property := { phieProp with parentWell := none }

/-- A sourced well for the C4 witness: PHIE under two sources, PERM under
one. -/
def sourcedWellEx : SourcedWell :=
  { name := "W", sources :=
      [("log", [("PHIE", phieRec), ("PERM", phieRec)]),
       ("core", [("PHIE", phieRec)])] }

/-! ## Lemmas about compute_intervals -/

theorem intervalsAux_length (prev : ℚ) (l : List ℚ) :
    (intervalsAux prev l).length = l.length := by
  induction l generalizing prev with
  | nil => simp [intervalsAux]
  | cons x xs ih =>
    cases xs with
    | nil => simp [intervalsAux]
    | cons y rest => simp [intervalsAux, ih]

theorem intervalsAux_sum (prev : ℚ) (l : List ℚ) (h : l ≠ []) :
    (intervalsAux prev l).sum = l.getLastD 0 - (prev + l.headD 0) / 2 := by
  induction l generalizing prev with
  | nil => exact absurd rfl h
  | cons x xs ih =>
    cases xs with
    | nil =>
      simp [intervalsAux]
      ring
    | cons y rest =>
      have hx := ih x (by simp)
      simp only [intervalsAux, List.sum_cons, hx, List.getLastD_cons,
        List.headD_cons]
      ring

theorem formulaShift (a prev : ℚ) (l : List ℚ) (j : ℕ) (hj : j < l.length) :
    (if j = l.length - 1 then
      (l.getD j 0 - (if j = 0 then a else l.getD (j - 1) 0)) / 2
     else
      (l.getD (j + 1) 0 + l.getD j 0) / 2 -
        (l.getD j 0 + (if j = 0 then a else l.getD (j - 1) 0)) / 2) =
    (if j + 1 = (a :: l).length - 1 then
      ((a :: l).getD (j + 1) 0 -
        (if j + 1 = 0 then prev else (a :: l).getD (j + 1 - 1) 0)) / 2
     else
      ((a :: l).getD (j + 1 + 1) 0 + (a :: l).getD (j + 1) 0) / 2 -
        ((a :: l).getD (j + 1) 0 +
          (if j + 1 = 0 then prev else (a :: l).getD (j + 1 - 1) 0)) / 2) := by
  have hcond : (j + 1 = (a :: l).length - 1) ↔ (j = l.length - 1) := by
    simp only [List.length_cons, Nat.add_sub_cancel]
    omega
  have hinner : (if j + 1 = 0 then prev else (a :: l).getD (j + 1 - 1) 0) =
      (if j = 0 then a else l.getD (j - 1) 0) := by
    cases j with
    | zero => simp
    | succ k => simp [List.getD_cons_succ]
  by_cases hlast : j = l.length - 1
  · rw [if_pos hlast, if_pos (hcond.mpr hlast), hinner]
    simp [List.getD_cons_succ]
  · rw [if_neg hlast, if_neg (fun hc => hlast (hcond.mp hc)), hinner]
    simp [List.getD_cons_succ]

theorem intervalsAux_getD (prev : ℚ) (l : List ℚ) (i : ℕ) (hi : i < l.length) :
    (intervalsAux prev l).getD i 0 =
      if i = l.length - 1 then
        (l.getD i 0 - (if i = 0 then prev else l.getD (i - 1) 0)) / 2
      else
        (l.getD (i + 1) 0 + l.getD i 0) / 2 -
          (l.getD i 0 + (if i = 0 then prev else l.getD (i - 1) 0)) / 2 := by
  induction l generalizing prev i with
  | nil => simp at hi
  | cons x xs ih =>
    cases xs with
    | nil =>
      have hi0 : i = 0 := by simpa using hi
      subst hi0
      simp [intervalsAux]
    | cons y rest =>
      cases i with
      | zero => simp [intervalsAux, List.getD_cons_succ]
      | succ j =>
        have hj : j < (y :: rest).length := by
          simpa [Nat.succ_lt_succ_iff] using hi
        have hrec := ih x j hj
        calc (intervalsAux prev (x :: y :: rest)).getD (j + 1) 0
            = (intervalsAux x (y :: rest)).getD j 0 := by
              simp [intervalsAux, List.getD_cons_succ]
          _ = _ := by rw [hrec]; exact formulaShift x prev (y :: rest) j hj

theorem specMidpointIntervals_length (d : List ℚ) :
    (specMidpointIntervals d).length = d.length := by
  simp [specMidpointIntervals]

theorem specMidpointIntervals_getD (d : List ℚ) (i : ℕ) (hi : i < d.length) :
    (specMidpointIntervals d).getD i 0 =
      if i = 0 then (d.getD 1 0 - d.getD 0 0) / 2
      else if i = d.length - 1 then (d.getD i 0 - d.getD (i - 1) 0) / 2
      else (d.getD (i + 1) 0 + d.getD i 0) / 2 -
        (d.getD i 0 + d.getD (i - 1) 0) / 2 := by
  simp [specMidpointIntervals, List.getD_eq_getElem?_getD, List.getElem?_map,
    List.getElem?_range hi]

/-- C7: for every depth array of length ≥ 2, `compute_intervals` returns
exactly the midpoint-rule interval list the specification describes, and the
intervals sum to depth[-1] − depth[0] exactly; a single-sample array yields
[1.0]. -/
theorem claim7_compute_intervals (d : List ℚ) (h : 2 ≤ d.length) :
    (compute_intervals d = specMidpointIntervals d ∧
      (compute_intervals d).sum = d.getLastD 0 - d.headD 0) ∧
    ∀ x : ℚ, compute_intervals [x] = [1] := by
  refine ⟨?_, fun x => rfl⟩
  obtain ⟨d0, d1, rest, rfl⟩ : ∃ d0 d1 rest, d = d0 :: d1 :: rest := by
    cases d with
    | nil => simp at h
    | cons a t =>
      cases t with
      | nil => simp at h
      | cons b r => exact ⟨a, b, r, rfl⟩
  constructor
  · apply List.ext_getElem
    · simp [compute_intervals, intervalsAux_length, specMidpointIntervals]
    · intro i h1 h2
      rw [← List.getD_eq_getElem _ 0 h1, ← List.getD_eq_getElem _ 0 h2]
      have hi : i < (d0 :: d1 :: rest).length := by
        simpa [specMidpointIntervals_length] using h2
      rw [specMidpointIntervals_getD _ _ hi]
      cases i with
      | zero => simp [compute_intervals]
      | succ j =>
        have hj : j < (d1 :: rest).length := by
          simpa [Nat.succ_lt_succ_iff] using hi
        have hstep : (compute_intervals (d0 :: d1 :: rest)).getD (j + 1) 0 =
            (intervalsAux d0 (d1 :: rest)).getD j 0 := by
          simp [compute_intervals, List.getD_cons_succ]
        rw [hstep, intervalsAux_getD d0 _ j hj,
          formulaShift d0 0 (d1 :: rest) j hj]
        simp
  · have hsum := intervalsAux_sum d0 (d1 :: rest) (by simp)
    simp only [compute_intervals, List.sum_cons, hsum, List.getLastD_cons,
      List.headD_cons]
    ring

/-- Witness for C7 at the spec's own scenario depth [1500, 1501, 1505]. -/
theorem claim7_witness :
    2 ≤ ([1500, 1501, 1505] : List ℚ).length ∧
    ((compute_intervals [1500, 1501, 1505] =
        specMidpointIntervals [1500, 1501, 1505] ∧
      (compute_intervals [1500, 1501, 1505]).sum =
        ([1500, 1501, 1505] : List ℚ).getLastD 0 -
          ([1500, 1501, 1505] : List ℚ).headD 0) ∧
     ∀ x : ℚ, compute_intervals [x] = [1]) :=
  ⟨by norm_num, claim7_compute_intervals _ (by norm_num)⟩

/-! ## Claim C8: NaN semantics of the statistics kernels -/

theorem weighted_mean_isSome (values weights : List (Option ℚ))
    (h1 : (validPairs values weights).length ≠ 0)
    (h2 : ((validPairs values weights).map Prod.snd).sum ≠ 0) :
    ∃ m, weighted_mean values weights = some m := by
  simp [weighted_mean, h1, h2]

/-- C8 counterexample: with two valid pairs but a negative total weight
(1 + (−2) = −1), weighted_mean returns the number 1; the claim's validity
precondition "total valid weight > 0" fails there, so the claim, which says
the kernel returns NaN exactly when a precondition fails, is false — the
source only rejects a total weight equal to 0. -/
theorem claim8_counterexample :
    weighted_mean [some 1, some 1] [some 1, some (-2)] = some 1 ∧
    ¬(0 < ((validPairs [some 1, some 1] [some 1, some (-2)]).map
        Prod.snd).sum) := by
  constructor
  · norm_num [weighted_mean, validPairs, List.filterMap_cons]
  · norm_num [validPairs, List.filterMap_cons]

/-- C8 (amended): each kernel first masks out pairs whose value or weight is
NaN, and returns NaN exactly when: weighted_mean — no valid pair or total
valid weight equal to zero (not "> 0": a negative total still computes);
weighted_sum and weighted_percentile — no valid pair; weighted_std — fewer
than two valid pairs, total weight equal to zero, or a negative computed
variance (the final `np.sqrt` of a negative number is NaN; possible only
with negative weights); arithmetic_std — fewer than two valid values.  The
negative-variance case genuinely occurs: at values [0, 1] and weights
[1, −1/2] there are two valid pairs and total weight 1/2 ≠ 0, yet the
variance is −2 and the source returns NaN. -/
theorem claim8_nan_characterization (values weights : List (Option ℚ))
    (p : ℚ) :
    ((weighted_mean values weights = none ↔
      (validPairs values weights).length = 0 ∨
        ((validPairs values weights).map Prod.snd).sum = 0) ∧
    (weighted_sum values weights = none ↔
      (validPairs values weights).length = 0) ∧
    (weighted_percentile values weights p = none ↔
      (validPairs values weights).length = 0) ∧
    (weighted_std_sq values weights = none ↔
      (validPairs values weights).length < 2 ∨
        ((validPairs values weights).map Prod.snd).sum = 0 ∨
        weighted_variance values weights < 0) ∧
    (arithmetic_std_sq values = none ↔ (validOnly values).length < 2)) ∧
    (weighted_std_sq [some 0, some 1] [some 1, some (-1/2)] = none ∧
     (validPairs [some 0, some 1] [some 1, some (-1/2)]).length = 2 ∧
     ((validPairs [some 0, some 1] [some 1, some (-1/2)]).map Prod.snd).sum
       = 1/2 ∧
     weighted_variance [some 0, some 1] [some 1, some (-1/2)] = -2) := by
  refine ⟨⟨?_, ?_, ?_, ?_, ?_⟩, ?_, ?_, ?_, ?_⟩
  · simp only [weighted_mean]
    split_ifs with h
    · simp only [true_iff, eq_self_iff_true]
      rcases h with h | h
      · simp [List.length_eq_zero.mp h]
      · simp [h]
    · rw [not_or] at h
      simp only [reduceCtorEq, false_iff, not_or]
      exact ⟨fun he => h.1 (by simp [he]), h.2⟩
  · simp only [weighted_sum]
    split_ifs with h
    · simp [h]
    · simp [h]
  · by_cases h : (validPairs values weights).length = 0
    · simp [weighted_percentile, h]
    · simp only [weighted_percentile, if_neg h]
      constructor
      · intro hc
        split_ifs at hc
      · intro hc
        exact absurd hc h
  · simp only [weighted_std_sq]
    split_ifs with h h2
    · rcases h with h | h
      · simp [h]
      · simp [h]
    · simp only [true_iff, eq_self_iff_true]
      exact Or.inr (Or.inr h2)
    · push_neg at h
      simp only [reduceCtorEq, false_iff, not_or, not_lt]
      exact ⟨by omega, h.2, le_of_not_lt h2⟩
  · simp only [arithmetic_std_sq]
    split_ifs with h
    · simp [h]
    · simp [h]
  · norm_num [weighted_std_sq, weighted_variance, weighted_mean, validPairs,
      List.filterMap_cons]
  · norm_num [validPairs, List.filterMap_cons]
  · norm_num [validPairs, List.filterMap_cons]
  · norm_num [weighted_variance, weighted_mean, validPairs,
      List.filterMap_cons]

/-! ## Claim C10: depth_thickness is the gross span of the selected depths -/

/-- C10: the depth_thickness entry of every statistics dict equals the gross
span of the mask-selected depths (last minus first) when at least two samples
are selected and 0 otherwise; it does not depend on the value array (so NaN
values do not affect it); and, concretely, it is not the sum of the selected
midpoint intervals — two disjoint interleaved groups on depth [0,1,2,3] each
report span 2, jointly exceeding the full range 3, while the selected
midpoint intervals of the first group sum to 3/2. -/
theorem claim10_depth_thickness (depth : List ℚ)
    (values values2 : List (Option ℚ)) (mask : List Bool) :
    (statGet (computeStats depth values mask) "depth_thickness" =
      some (some (if 1 < (boolSelect depth mask).length then
        (boolSelect depth mask).getLastD 0 - (boolSelect depth mask).headD 0
      else 0)) ∧
     statGet (computeStats depth values mask) "depth_thickness" =
      statGet (computeStats depth values2 mask) "depth_thickness") ∧
    (statGet (computeStats [0, 1, 2, 3] [some 1, some 1, some 1, some 1]
        [true, false, true, false]) "depth_thickness" = some (some 2) ∧
     statGet (computeStats [0, 1, 2, 3] [some 1, some 1, some 1, some 1]
        [false, true, false, true]) "depth_thickness" = some (some 2) ∧
     (2 + 2 : ℚ) > 3 ∧
     (boolSelect (compute_intervals [0, 1, 2, 3])
        [true, false, true, false]).sum = 3 / 2 ∧ (2 : ℚ) ≠ 3 / 2) := by
  refine ⟨⟨?_, ?_⟩, ?_, ?_, by norm_num, ?_, by norm_num⟩
  · simp [computeStats, statGet]
  · simp [computeStats, statGet]
  · simp [computeStats, statGet, boolSelect, List.filterMap_cons]
  · simp [computeStats, statGet, boolSelect, List.filterMap_cons]
    norm_num
  · norm_num [boolSelect, compute_intervals, intervalsAux,
      List.filterMap_cons]

/-! ## Claim C5: resample_to_grid shape and degenerate cases -/

/-- C5: resample_to_grid always returns exactly as many entries as the new
grid; with zero valid source points every entry is NaN; with exactly one
valid source point, nearest-neighbour interpolation is forced regardless of
the requested method and every new grid point receives that point's value.
(The interpolants themselves are modelled from the spec, scipy being outside
the repository.) -/
theorem claim5_resample_shape (oldDepth newDepth : List ℚ)
    (oldValues : List (Option ℚ)) (method : Method) :
    (resample_to_grid oldDepth oldValues newDepth method).length =
      newDepth.length ∧
    ((oldDepth.zip oldValues).filterMap
        (fun p => p.2.map (fun v => (p.1, v))) = [] →
      resample_to_grid oldDepth oldValues newDepth method =
        newDepth.map (fun _ => none)) ∧
    (∀ d v, (oldDepth.zip oldValues).filterMap
        (fun p => p.2.map (fun v => (p.1, v))) = [(d, v)] →
      resample_to_grid oldDepth oldValues newDepth method =
        newDepth.map (fun _ => some v)) := by
  refine ⟨?_, ?_, ?_⟩
  · simp only [resample_to_grid]
    split_ifs <;> simp
  · intro h
    simp [resample_to_grid, h]
  · intro d v h
    simp [resample_to_grid, h, methodEval, nearestEval]

/-- Witness for C5: a single valid source point at depth 10 with value 5
propagates to every point of the new grid [0, 20, 30] under a linear
request. -/
theorem claim5_witness :
    ([(10 : ℚ)].zip [some (5 : ℚ)]).filterMap
        (fun p => p.2.map (fun v => (p.1, v))) = [((10 : ℚ), (5 : ℚ))] ∧
    resample_to_grid [10] [some 5] [0, 20, 30] Method.linear =
      [some 5, some 5, some 5] := by
  have hpts : ([(10 : ℚ)].zip [some (5 : ℚ)]).filterMap
      (fun p => p.2.map (fun v => (p.1, v))) = [((10 : ℚ), (5 : ℚ))] := by
    simp [List.filterMap_cons]
  refine ⟨hpts, ?_⟩
  have h := (claim5_resample_shape [10] [0, 20, 30] [some 5]
    Method.linear).2.2 10 5 hpts
  simpa using h

/-! ## Claim C9: error behaviour of Property.filter -/

/-- C9: Property.filter fails with the not-found error when the property has
no owning-well back-reference; fails with the not-found error carrying the
well's available property names (which the source enumerates in the message)
when the name does not resolve; fails with the type error when the resolved
property's type is not exactly 'discrete'; and returns normally otherwise. -/
theorem claim9_filter_errors (p : Property) (n : String) :
    (p.parentWell = none →
      Property.filter p n =
        Except.error (FilterError.notFoundNoWell p.name)) ∧
    (∀ w, p.parentWell = some w → w.getProp n = none →
      Property.filter p n =
        Except.error (FilterError.notFound n (w.properties.map Prod.fst))) ∧
    (∀ w dp, p.parentWell = some w → w.getProp n = some dp →
      dp.ptype ≠ "discrete" →
      Property.filter p n =
        Except.error (FilterError.typeError n dp.ptype)) ∧
    (∀ w dp, p.parentWell = some w → w.getProp n = some dp →
      dp.ptype = "discrete" → ∃ q, Property.filter p n = Except.ok q) := by
  refine ⟨?_, ?_, ?_, ?_⟩
  · intro h
    simp [Property.filter, h]
  · intro w hw hg
    simp [Property.filter, hw, hg]
  · intro w dp hw hg ht
    simp [Property.filter, hw, hg, ht]
  · intro w dp hw hg ht
    simp only [Property.filter, hw, hg, ht, ne_eq, not_true_eq_false,
      if_false]
    exact ⟨_, rfl⟩

/-- Witness for C9 on the fixture well: a wellless property cannot filter;
a missing name reports the available names; the continuous PHIE is rejected
as a grouping key; the discrete Zone succeeds. -/
theorem claim9_witness :
    Property.filter orphanProp "Zone" =
      Except.error (FilterError.notFoundNoWell "PHIE") ∧
    Property.filter phieProp "Missing" =
      Except.error (FilterError.notFound "Missing" ["PHIE", "Zone", "NTG"]) ∧
    Property.filter phieProp "PHIE" =
      Except.error (FilterError.typeError "PHIE" "continuous") ∧
    ∃ q, Property.filter phieProp "Zone" = Except.ok q := by
  have hmiss : wellEx.getProp "Missing" = none := by
    simp [Well.getProp, lookupName, wellEx, sanitizeName]
  have hphie : wellEx.getProp "PHIE" = some phieRec := by
    simp [Well.getProp, lookupName, wellEx]
  have hzone : wellEx.getProp "Zone" = some zoneRec := by
    simp [Well.getProp, lookupName, wellEx]
  refine ⟨(claim9_filter_errors orphanProp "Zone").1 rfl, ?_, ?_, ?_⟩
  · have h := (claim9_filter_errors phieProp "Missing").2.1 wellEx rfl hmiss
    simpa [wellEx] using h
  · have h := (claim9_filter_errors phieProp "PHIE").2.2.1 wellEx phieRec
      rfl hphie (by simp [phieRec])
    simpa [phieRec] using h
  · exact (claim9_filter_errors phieProp "Zone").2.2.2 wellEx zoneRec
      rfl hzone rfl

/-! ## Claim C3: filter preserves the grid and appends one secondary -/

theorem cleanValues_length (nv : ℚ) (vs : List (Option ℚ)) :
    (cleanValues nv vs).length = vs.length := by
  simp [cleanValues]

theorem resample_to_grid_length (oldDepth newDepth : List ℚ)
    (oldValues : List (Option ℚ)) (method : Method) :
    (resample_to_grid oldDepth oldValues newDepth method).length =
      newDepth.length := by
  simp only [resample_to_grid]
  split_ifs <;> simp

/-- C3: whenever Property.filter succeeds, the returned property keeps the
caller's depth grid unchanged, its secondary list is the caller's with
exactly one new resampled secondary appended, the new secondary lives on the
caller's depth grid with one value per depth sample, and — given the engine
invariant that the caller's secondaries ride its grid — every secondary of
the result rides the result's grid.  (The caller itself is untouched: the
embedding is a pure function, and the source constructs new objects without
assigning to the caller's fields.) -/
theorem claim3_filter_preserves_grid (p : Property) (n : String)
    (q : Property) (hq : Property.filter p n = Except.ok q)
    (hinv : ∀ s ∈ p.secondaries, s.depth = p.depth) :
    q.depth = p.depth ∧
    (∃ s, q.secondaries = p.secondaries ++ [s] ∧ s.depth = p.depth ∧
      s.values.length = p.depth.length) ∧
    ∀ s ∈ q.secondaries, s.depth = q.depth := by
  cases hpw : p.parentWell with
  | none => simp [Property.filter, hpw] at hq
  | some w =>
    cases hgp : w.getProp n with
    | none => simp [Property.filter, hpw, hgp] at hq
    | some dp =>
      by_cases ht : dp.ptype = "discrete"
      · simp only [Property.filter, hpw, hgp, ht, ne_eq, not_true_eq_false,
          if_false] at hq
        obtain rfl := (Except.ok.injEq _ _).mp hq.symm
        refine ⟨rfl, ⟨_, rfl, rfl, ?_⟩, ?_⟩
        · rw [cleanValues_length, resample_to_grid_length]
        · intro s hs
          rcases List.mem_append.mp hs with hs | hs
          · exact hinv s hs
          · rcases List.mem_singleton.mp hs with rfl
            rfl
      · simp [Property.filter, hpw, hgp, ht] at hq

/-- Witness for C3: filtering the fixture porosity by Zone yields exactly the
expected property, with the grid preserved and the Zone secondary appended. -/
theorem claim3_witness :
    Property.filter phieProp "Zone" = Except.ok filteredPhie ∧
    (∀ s ∈ phieProp.secondaries, s.depth = phieProp.depth) ∧
    (filteredPhie.depth = phieProp.depth ∧
     (∃ s, filteredPhie.secondaries = phieProp.secondaries ++ [s] ∧
        s.depth = phieProp.depth ∧
        s.values.length = phieProp.depth.length) ∧
     ∀ s ∈ filteredPhie.secondaries, s.depth = filteredPhie.depth) := by
  have hzone : wellEx.getProp "Zone" = some zoneRec := by
    simp [Well.getProp, lookupName, wellEx]
  have hq : Property.filter phieProp "Zone" = Except.ok filteredPhie := by
    simp only [Property.filter]
    simp [phieProp, zoneRec, phieRec, ntgRec, filteredPhie, wellEx,
      Well.getProp, lookupName, resample_to_grid, methodEval, nearestEval,
      cleanValues, List.filterMap_cons]
    norm_num [abs_of_nonneg]
  exact ⟨hq, by simp [phieProp],
    claim3_filter_preserves_grid phieProp "Zone" filteredPhie hq
      (by simp [phieProp])⟩

/-! ## Claim C4: multi-source ambiguity resolution -/

/-- C4 (modelled from the spec, §4.5 — the source-aware statistics machinery
is not under src/): when a property name resolves under two or more sources,
a direct-name statistics request returns a mapping keyed by those source
names with each source's statistics as values; when it resolves under exactly
one source, the statistics are returned directly unless nested mode is
forced, in which case the output is source-keyed even for the unique name. -/
theorem claim4_source_ambiguity (w : SourcedWell) (propName : String)
    (nested : Bool) :
    (2 ≤ (sourceHits w propName).length →
      statsRequest w propName nested =
        StatResult.bySource ((sourceHits w propName).map
          (fun h => (h.1, recordStats h.2)))) ∧
    (∀ s pr, sourceHits w propName = [(s, pr)] →
      (nested = false →
        statsRequest w propName nested =
          StatResult.direct (recordStats pr)) ∧
      (nested = true →
        statsRequest w propName nested =
          StatResult.bySource [(s, recordStats pr)])) := by
  constructor
  · intro h2
    rcases h : sourceHits w propName with _ | ⟨h1, _ | ⟨hh2, t⟩⟩
    · rw [h] at h2; simp at h2
    · rw [h] at h2; simp at h2
    · simp [statsRequest, h]
  · intro s pr h1
    constructor
    · intro hn
      subst hn
      simp [statsRequest, h1]
    · intro hn
      subst hn
      simp [statsRequest, h1]

/-- Witness for C4: on the fixture sourced well, PHIE (two sources) returns a
source-keyed mapping, PERM (one source) returns direct statistics unless
nesting is forced. -/
theorem claim4_witness :
    2 ≤ (sourceHits sourcedWellEx "PHIE").length ∧
    statsRequest sourcedWellEx "PHIE" false =
      StatResult.bySource ((sourceHits sourcedWellEx "PHIE").map
        (fun h => (h.1, recordStats h.2))) ∧
    sourceHits sourcedWellEx "PERM" = [("log", phieRec)] ∧
    statsRequest sourcedWellEx "PERM" false =
      StatResult.direct (recordStats phieRec) ∧
    statsRequest sourcedWellEx "PERM" true =
      StatResult.bySource [("log", recordStats phieRec)] := by
  have hp : sourceHits sourcedWellEx "PHIE" =
      [("log", phieRec), ("core", phieRec)] := by
    simp [sourceHits, sourcedWellEx, lookupName, List.filterMap_cons]
  have hq : sourceHits sourcedWellEx "PERM" = [("log", phieRec)] := by
    simp [sourceHits, sourcedWellEx, lookupName, List.filterMap_cons]
  refine ⟨by rw [hp]; norm_num,
    (claim4_source_ambiguity sourcedWellEx "PHIE" false).1
      (by rw [hp]; norm_num), hq, ?_, ?_⟩
  · exact ((claim4_source_ambiguity sourcedWellEx "PERM" false).2 "log"
      phieRec hq).1 rfl
  · exact ((claim4_source_ambiguity sourcedWellEx "PERM" true).2 "log"
      phieRec hq).2 rfl

/-! ## Claim C6: helper lemmas on sorting and cumulative weights -/

theorem findIdx?_min (p : ℚ → Bool) (l : List ℚ) (j : ℕ) (hj : j < l.length)
    (hpj : p (l.getD j 0) = true)
    (hmin : ∀ i, i < j → p (l.getD i 0) = false) :
    List.findIdx? p l = some j := by
  induction l generalizing j with
  | nil => simp at hj
  | cons x xs ih =>
    cases j with
    | zero =>
      rw [List.getD_cons_zero] at hpj
      simp [List.findIdx?_cons, hpj]
    | succ k =>
      have h0 : p x = false := by
        have h := hmin 0 (Nat.succ_pos k)
        rwa [List.getD_cons_zero] at h
      have hk := ih k (by simpa [Nat.succ_lt_succ_iff] using hj)
        (by rwa [List.getD_cons_succ] at hpj)
        (fun i hik => by
          have h := hmin (i + 1) (Nat.succ_lt_succ hik)
          rwa [List.getD_cons_succ] at h)
      rw [List.findIdx?_cons, h0]
      simp [List.findIdx?_succ, hk]

theorem validPairs_replicate (values : List (Option ℚ)) (w : ℚ) :
    validPairs values (List.replicate values.length (some w)) =
      (validOnly values).map (fun v => (v, w)) := by
  induction values with
  | nil => rfl
  | cons v vs ih =>
    cases v with
    | none =>
      simpa [validPairs, validOnly, List.replicate_succ,
        List.filterMap_cons] using ih
    | some x =>
      simpa [validPairs, validOnly, List.replicate_succ,
        List.filterMap_cons] using ih

theorem eq_map_fst_of_snd_const (L : List (ℚ × ℚ)) (w : ℚ)
    (h : ∀ x ∈ L, x.2 = w) :
    L = (L.map Prod.fst).map (fun v => (v, w)) := by
  induction L with
  | nil => rfl
  | cons a t ih =>
    obtain ⟨f, s⟩ := a
    have ha : s = w := h (f, s) (by simp)
    subst ha
    simp only [List.map_cons]
    exact congrArg (List.cons (f, s)) (ih (fun x hx => h x (by simp [hx])))

theorem ratLe_trans_pair : ∀ a b c : ℚ × ℚ, ratLe a.1 b.1 = true →
    ratLe b.1 c.1 = true → ratLe a.1 c.1 = true := by
  intro a b c hab hbc
  simp only [ratLe, decide_eq_true_eq] at *
  exact le_trans hab hbc

theorem ratLe_total_pair : ∀ a b : ℚ × ℚ,
    (ratLe a.1 b.1 || ratLe b.1 a.1) = true := by
  intro a b
  simpa [ratLe] using le_total a.1 b.1

theorem ratLe_trans : ∀ a b c : ℚ, ratLe a b = true →
    ratLe b c = true → ratLe a c = true := by
  intro a b c hab hbc
  simp only [ratLe, decide_eq_true_eq] at *
  exact le_trans hab hbc

theorem ratLe_total : ∀ a b : ℚ, (ratLe a b || ratLe b a) = true := by
  intro a b
  simpa [ratLe] using le_total a b

theorem mergeSort_pair_const (l : List ℚ) (w : ℚ) :
    (l.map (fun v => (v, w))).mergeSort (fun a b => ratLe a.1 b.1) =
      (l.mergeSort ratLe).map (fun v => (v, w)) := by
  have hperm := List.mergeSort_perm (l.map (fun v => (v, w)))
    (fun a b => ratLe a.1 b.1)
  have hsorted := @List.sorted_mergeSort (ℚ × ℚ)
    (fun a b => ratLe a.1 b.1) ratLe_trans_pair ratLe_total_pair
    (l.map (fun v => (v, w)))
  have hsnd : ∀ x ∈ (l.map (fun v => (v, w))).mergeSort
      (fun a b => ratLe a.1 b.1), x.2 = w := by
    intro x hx
    have hx2 := hperm.mem_iff.mp hx
    rcases List.mem_map.mp hx2 with ⟨v, _, rfl⟩
    rfl
  have hfst : ((l.map (fun v => (v, w))).mergeSort
      (fun a b => ratLe a.1 b.1)).map Prod.fst = l.mergeSort ratLe := by
    have h1 : (((l.map (fun v => (v, w))).mergeSort
        (fun a b => ratLe a.1 b.1)).map Prod.fst).Perm l := by
      have h2 := hperm.map Prod.fst
      simpa [List.map_map, Function.comp_def] using h2
    have h3 : l.Perm (l.mergeSort ratLe) :=
      (List.mergeSort_perm l ratLe).symm
    have hs1 : List.Sorted (· ≤ ·) (((l.map (fun v => (v, w))).mergeSort
        (fun a b => ratLe a.1 b.1)).map Prod.fst) := by
      refine List.pairwise_map.mpr (hsorted.imp ?_)
      intro a b hab
      simpa [ratLe] using hab
    have hs2 : List.Sorted (· ≤ ·) (l.mergeSort ratLe) := by
      refine (@List.sorted_mergeSort ℚ ratLe ratLe_trans ratLe_total l).imp ?_
      intro a b hab
      simpa [ratLe] using hab
    exact @List.eq_of_perm_of_sorted ℚ (· ≤ ·) _ _ _ (h1.trans h3) hs1 hs2
  calc (l.map (fun v => (v, w))).mergeSort (fun a b => ratLe a.1 b.1)
      = (((l.map (fun v => (v, w))).mergeSort
          (fun a b => ratLe a.1 b.1)).map Prod.fst).map (fun v => (v, w)) :=
        eq_map_fst_of_snd_const _ w hsnd
    _ = (l.mergeSort ratLe).map (fun v => (v, w)) := by rw [hfst]

theorem cumAux_replicate (w a : ℚ) (n : ℕ) :
    cumAux a (List.replicate n w) =
      (List.range n).map (fun i : ℕ => a + ((i : ℚ) + 1) * w) := by
  induction n generalizing a with
  | zero => rfl
  | succ m ih =>
    rw [List.replicate_succ, cumAux, ih (a + w), List.range_succ_eq_map]
    simp only [List.map_cons, List.map_map, Function.comp_def]
    refine List.cons_eq_cons.mpr ⟨by push_cast; ring, ?_⟩
    refine List.map_congr_left ?_
    intro i _
    push_cast
    ring

theorem cumsum_replicate (w : ℚ) (n : ℕ) :
    cumsum (List.replicate n w) =
      (List.range n).map (fun i : ℕ => ((i : ℚ) + 1) * w) := by
  rw [cumsum, cumAux_replicate]
  refine List.map_congr_left ?_
  intro i _
  ring

theorem getD_range_map (f : ℕ → ℚ) (n i : ℕ) (hi : i < n) :
    ((List.range n).map f).getD i 0 = f i := by
  simp [List.getD_eq_getElem?_getD, List.getElem?_map, List.getElem?_range hi]

theorem getLastD_range_map (f : ℕ → ℚ) (n : ℕ) (h : 1 ≤ n) :
    ((List.range n).map f).getLastD 0 = f (n - 1) := by
  rw [List.getLastD_eq_getLast?, List.getLast?_eq_getElem?]
  have hlt : n - 1 < n := by omega
  simp [List.getElem?_map, List.getElem?_range hlt]

theorem headD_eq_getD_zero (l : List ℚ) : l.headD 0 = l.getD 0 0 := by
  cases l <;> rfl

/-- C6 counterexample: on values [1, 2, 3] with uniform weights 1, the code's
weighted percentile at p = 50 is 3/2, while the ordinary median is 2 — the
cumulative weight of the i-th sorted sample is (i+1)·w rather than
(i+1/2)·w, so the interpolated inverse CDF is shifted half a sample. -/
theorem claim6_counterexample :
    weighted_percentile [some 1, some 2, some 3] [some 1, some 1, some 1] 50 =
      some (3 / 2) ∧
    specMedian [some 1, some 2, some 3] = some 2 ∧
    ((3 : ℚ) / 2) ≠ 2 := by
  refine ⟨?_, ?_, by norm_num⟩
  · norm_num [weighted_percentile, validPairs, List.filterMap_cons,
      List.mergeSort, List.merge, ratLe, cumsum, cumAux, searchsortedLeft,
      List.findIdx?_cons, List.findIdx?_succ]
  · norm_num [specMedian, validOnly, List.filterMap_cons, List.mergeSort,
      List.merge, ratLe]

/-- C6 (amended): on a uniform positive weight series the source's weighted
percentile at p = 50 is the smallest valid value when at most two valid
values remain, the lower middle sorted value (index n/2 − 1) when n is even,
and the average of the sorted values at indices n/2 − 1 and n/2 when n ≥ 3
is odd; it therefore coincides with the ordinary median when n = 1 (and in
general only when the relevant middle values agree), not for every series as
the claim states. -/
theorem claim6_amended_uniform_p50 (values : List (Option ℚ)) (w : ℚ)
    (hw : 0 < w) (hn : 1 ≤ (validOnly values).length) :
    (weighted_percentile values (List.replicate values.length (some w)) 50 =
      some (if (validOnly values).length ≤ 2 then
          ((validOnly values).mergeSort ratLe).headD 0
        else if (validOnly values).length % 2 = 0 then
          ((validOnly values).mergeSort ratLe).getD
            ((validOnly values).length / 2 - 1) 0
        else
          (((validOnly values).mergeSort ratLe).getD
              ((validOnly values).length / 2 - 1) 0 +
            ((validOnly values).mergeSort ratLe).getD
              ((validOnly values).length / 2) 0) / 2)) ∧
    ((validOnly values).length = 1 →
      weighted_percentile values (List.replicate values.length (some w)) 50 =
        specMedian values) := by
  have hpairs := validPairs_replicate values w
  have hSlen : ((validOnly values).mergeSort ratLe).length =
      (validOnly values).length := List.length_mergeSort _
  have hfst : ((((validOnly values).mergeSort ratLe).map
      (fun v => (v, w))).map Prod.fst) = (validOnly values).mergeSort ratLe := by
    simp [List.map_map, Function.comp_def]
  have hsnd : ((((validOnly values).mergeSort ratLe).map
      (fun v => (v, w))).map Prod.snd) =
      List.replicate (validOnly values).length w := by
    simp [List.map_map, Function.comp_def, List.map_const', hSlen]
  have hmain : weighted_percentile values
      (List.replicate values.length (some w)) 50 =
      some (if (validOnly values).length ≤ 2 then
          ((validOnly values).mergeSort ratLe).headD 0
        else if (validOnly values).length % 2 = 0 then
          ((validOnly values).mergeSort ratLe).getD
            ((validOnly values).length / 2 - 1) 0
        else
          (((validOnly values).mergeSort ratLe).getD
              ((validOnly values).length / 2 - 1) 0 +
            ((validOnly values).mergeSort ratLe).getD
              ((validOnly values).length / 2) 0) / 2) := by
    simp only [weighted_percentile, hpairs, mergeSort_pair_const, hfst,
      hsnd, cumsum_replicate, List.length_map]
    rw [if_neg (by omega)]
    rw [getLastD_range_map _ _ hn]
    have hcast : (((validOnly values).length - 1 : ℕ) : ℚ) =
        ((validOnly values).length : ℚ) - 1 := by
      rw [Nat.cast_sub hn, Nat.cast_one]
    have htarget : (50 : ℚ) / 100 *
        (((((validOnly values).length - 1 : ℕ) : ℚ) + 1) * w) =
        ((validOnly values).length : ℚ) * w / 2 := by
      rw [hcast]; ring
    rw [htarget]
    have hjlt : ((validOnly values).length - 1) / 2 <
        (validOnly values).length := by omega
    have hidx : searchsortedLeft
        ((List.range (validOnly values).length).map
          (fun i : ℕ => ((i : ℚ) + 1) * w))
        (((validOnly values).length : ℚ) * w / 2) =
        ((validOnly values).length - 1) / 2 := by
      rw [searchsortedLeft, findIdx?_min _ _ (((validOnly values).length - 1) / 2)
        (by simpa using hjlt) ?_ ?_]
      · simp
      · rw [getD_range_map _ _ _ hjlt, ratLe, decide_eq_true_eq]
        have hnat : (validOnly values).length ≤
            2 * (((validOnly values).length - 1) / 2 + 1) := by omega
        have hcast2 : ((validOnly values).length : ℚ) ≤
            2 * (((((validOnly values).length - 1) / 2 : ℕ) : ℚ) + 1) := by
          exact_mod_cast hnat
        nlinarith
      · intro i hij
        have hilt : i < (validOnly values).length := by omega
        rw [getD_range_map _ _ _ hilt, ratLe, decide_eq_false_iff_not,
          not_le]
        have hnat : 2 * (i + 1) < (validOnly values).length := by omega
        have hcast2 : 2 * ((i : ℚ) + 1) < ((validOnly values).length : ℚ) := by
          exact_mod_cast hnat
        nlinarith
    rw [hidx]
    by_cases hj0 : ((validOnly values).length - 1) / 2 = 0
    · rw [if_pos hj0]
      rw [if_pos (by omega : (validOnly values).length ≤ 2)]
    · rw [if_neg hj0]
      rw [if_neg (by rw [hSlen]; omega)]
      have hj1 : 1 ≤ ((validOnly values).length - 1) / 2 := by omega
      have hn3 : 3 ≤ (validOnly values).length := by omega
      rw [if_neg (by omega : ¬ (validOnly values).length ≤ 2)]
      have hjm1 : ((validOnly values).length - 1) / 2 - 1 <
          (validOnly values).length := by omega
      rw [getD_range_map _ _ _ hjm1, getD_range_map _ _ _ hjlt]
      have hcastj : ((((validOnly values).length - 1) / 2 - 1 : ℕ) : ℚ) =
          ((((validOnly values).length - 1) / 2 : ℕ) : ℚ) - 1 := by
        rw [Nat.cast_sub hj1, Nat.cast_one]
      rw [hcastj]
      have hwne : w ≠ 0 := ne_of_gt hw
      have hfrac : (((validOnly values).length : ℚ) * w / 2 -
          (((((validOnly values).length - 1) / 2 : ℕ) : ℚ) - 1 + 1) * w) /
          ((((((validOnly values).length - 1) / 2 : ℕ) : ℚ) + 1) * w -
            ((((((validOnly values).length - 1) / 2 : ℕ) : ℚ) - 1 + 1) * w)) =
          ((validOnly values).length : ℚ) / 2 -
            ((((validOnly values).length - 1) / 2 : ℕ) : ℚ) := by
        have hden : (((((validOnly values).length - 1) / 2 : ℕ) : ℚ) + 1) * w -
            ((((((validOnly values).length - 1) / 2 : ℕ) : ℚ) - 1 + 1) * w) =
            w := by ring
        rw [hden, div_eq_iff hwne]
        ring
      rw [hfrac]
      refine congrArg some ?_
      rcases Nat.even_or_odd (validOnly values).length with he | ho
      · obtain ⟨m, hm⟩ := he
        have hmeq : (validOnly values).length = 2 * m := by omega
        have hj : ((validOnly values).length - 1) / 2 = m - 1 := by omega
        have hm2 : 2 ≤ m := by omega
        have hd2 : (validOnly values).length / 2 - 1 = m - 1 := by omega
        rw [if_pos (by omega : (validOnly values).length % 2 = 0), hj, hd2]
        have hc1 : (((m - 1 : ℕ)) : ℚ) = (m : ℚ) - 1 := by
          rw [Nat.cast_sub (by omega : 1 ≤ m), Nat.cast_one]
        have hcn : ((validOnly values).length : ℚ) = 2 * (m : ℚ) := by
          exact_mod_cast hmeq
        rw [hc1, hcn]
        ring
      · obtain ⟨m, hm⟩ := ho
        have hm1 : 1 ≤ m := by omega
        have hj : ((validOnly values).length - 1) / 2 = m := by omega
        have hd2 : (validOnly values).length / 2 = m := by omega
        rw [if_neg (by omega : ¬ (validOnly values).length % 2 = 0), hj, hd2]
        have hcn : ((validOnly values).length : ℚ) = 2 * (m : ℚ) + 1 := by
          exact_mod_cast hm
        rw [hcn]
        ring
  refine ⟨hmain, ?_⟩
  intro h1
  rw [hmain, h1]
  rw [specMedian]
  have hS1 : ((validOnly values).mergeSort ratLe).length = 1 := by
    rw [hSlen, h1]
  simp only [hS1]
  norm_num
  rw [List.head?_eq_getElem?]

/-- Witness for the amended C6 at values [1, 2, 3] with uniform weight 1. -/
theorem claim6_witness :
    (0 : ℚ) < 1 ∧
    1 ≤ (validOnly [some 1, some 2, some 3]).length ∧
    ((weighted_percentile [some 1, some 2, some 3]
        (List.replicate ([some 1, some 2, some 3] :
          List (Option ℚ)).length (some 1)) 50 =
      some (if (validOnly [some 1, some 2, some 3]).length ≤ 2 then
          ((validOnly [some 1, some 2, some 3]).mergeSort ratLe).headD 0
        else if (validOnly [some 1, some 2, some 3]).length % 2 = 0 then
          ((validOnly [some 1, some 2, some 3]).mergeSort ratLe).getD
            ((validOnly [some 1, some 2, some 3]).length / 2 - 1) 0
        else
          (((validOnly [some 1, some 2, some 3]).mergeSort ratLe).getD
              ((validOnly [some 1, some 2, some 3]).length / 2 - 1) 0 +
            ((validOnly [some 1, some 2, some 3]).mergeSort ratLe).getD
              ((validOnly [some 1, some 2, some 3]).length / 2) 0) / 2)) ∧
     ((validOnly [some 1, some 2, some 3]).length = 1 →
      weighted_percentile [some 1, some 2, some 3]
          (List.replicate ([some 1, some 2, some 3] :
            List (Option ℚ)).length (some 1)) 50 =
        specMedian [some 1, some 2, some 3])) :=
  ⟨by norm_num, by norm_num [validOnly, List.filterMap_cons],
   claim6_amended_uniform_p50 [some 1, some 2, some 3] 1 (by norm_num)
     (by norm_num [validOnly, List.filterMap_cons])⟩

/-! ## Claim C2: shape of the grouped statistics -/

theorem npUnique_mem (x : ℚ) (l : List ℚ) : x ∈ npUnique l ↔ x ∈ l := by
  rw [npUnique, List.mem_dedup]
  exact (List.mergeSort_perm l ratLe).mem_iff

theorem pts_map_some (d xs : List ℚ) :
    (d.zip (xs.map some)).filterMap
      (fun p => p.2.map (fun v => (p.1, v))) = d.zip xs := by
  induction d generalizing xs with
  | nil => rfl
  | cons a t ih =>
    cases xs with
    | nil => rfl
    | cons x tx => simp [List.filterMap_cons, ih]

theorem foldl_nearest_spec (q : ℚ) (l : List (ℚ × ℚ)) (b : ℚ × ℚ) :
    (l.foldl (fun best c => if |c.1 - q| < |best.1 - q| then c else best) b)
        ∈ b :: l ∧
    |(l.foldl (fun best c => if |c.1 - q| < |best.1 - q| then c else best)
        b).1 - q| ≤ |b.1 - q| ∧
    ∀ c ∈ l, |(l.foldl (fun best c => if |c.1 - q| < |best.1 - q| then c
        else best) b).1 - q| ≤ |c.1 - q| := by
  induction l generalizing b with
  | nil => exact ⟨List.mem_cons_self _ _, le_refl _, by simp⟩
  | cons c t ih =>
    simp only [List.foldl_cons]
    by_cases hc : |c.1 - q| < |b.1 - q|
    · rw [if_pos hc]
      obtain ⟨hmem, hle, hall⟩ := ih c
      refine ⟨?_, le_trans hle (le_of_lt hc), ?_⟩
      · rcases List.mem_cons.mp hmem with h | h
        · rw [h]
          exact List.mem_cons_of_mem _ (List.mem_cons_self _ _)
        · exact List.mem_cons_of_mem _ (List.mem_cons_of_mem _ h)
      · intro c' hc'
        rcases List.mem_cons.mp hc' with rfl | h
        · exact hle
        · exact hall c' h
    · rw [if_neg hc]
      obtain ⟨hmem, hle, hall⟩ := ih b
      refine ⟨?_, hle, ?_⟩
      · rcases List.mem_cons.mp hmem with h | h
        · rw [h]
          exact List.mem_cons_self _ _
        · exact List.mem_cons_of_mem _ (List.mem_cons_of_mem _ h)
      · intro c' hc'
        rcases List.mem_cons.mp hc' with rfl | h
        · exact le_trans hle (not_lt.mp hc)
        · exact hall c' h

theorem mem_zip_getD (d xs : List ℚ) (b : ℚ × ℚ) (hb : b ∈ d.zip xs) :
    ∃ j, j < d.length ∧ j < xs.length ∧
      b = (d.getD j 0, xs.getD j 0) := by
  rcases List.get_of_mem hb with ⟨k, hk⟩
  have hk1 : (k : ℕ) < d.length := by
    have h := k.2
    simp [List.length_zip] at h
    omega
  have hk2 : (k : ℕ) < xs.length := by
    have h := k.2
    simp [List.length_zip] at h
    omega
  refine ⟨k, hk1, hk2, ?_⟩
  rw [← hk, List.get_eq_getElem, List.getElem_zip,
    List.getD_eq_getElem d 0 hk1, List.getD_eq_getElem xs 0 hk2]

theorem getD_inj_of_mono (d : List ℚ) (hmono : d.Pairwise (· < ·))
    (i j : ℕ) (hi : i < d.length) (hj : j < d.length)
    (h : d.getD i 0 = d.getD j 0) : i = j := by
  rw [List.getD_eq_getElem d 0 hi, List.getD_eq_getElem d 0 hj] at h
  by_contra hne
  rcases Nat.lt_or_ge i j with hlt | hge
  · exact absurd h
      (ne_of_lt (List.pairwise_iff_getElem.mp hmono i j hi hj hlt))
  · have hlt : j < i := by omega
    exact absurd h.symm
      (ne_of_lt (List.pairwise_iff_getElem.mp hmono j i hj hi hlt))

theorem nearestEval_self (d xs : List ℚ) (hmono : d.Pairwise (· < ·))
    (hlen : xs.length = d.length) (i : ℕ) (hi : i < d.length) :
    nearestEval (d.zip xs) (d.getD i 0) = some (xs.getD i 0) := by
  have hpair : (d.getD i 0, xs.getD i 0) ∈ d.zip xs := by
    rw [List.mem_iff_getElem]
    refine ⟨i, by simp [List.length_zip]; omega, ?_⟩
    rw [List.getElem_zip, List.getD_eq_getElem d 0 hi,
      List.getD_eq_getElem xs 0 (by omega)]
  cases hz : d.zip xs with
  | nil => rw [hz] at hpair; cases hpair
  | cons p rest =>
    rw [nearestEval]
    obtain ⟨hmem, hle, hall⟩ := foldl_nearest_spec (d.getD i 0) rest p
    rw [hz] at hpair
    have hbest0 : |(rest.foldl (fun best c =>
        if |c.1 - d.getD i 0| < |best.1 - d.getD i 0| then c else best)
        p).1 - d.getD i 0| = 0 := by
      refine le_antisymm ?_ (abs_nonneg _)
      rcases List.mem_cons.mp hpair with hp | hp
      · calc _ ≤ |p.1 - d.getD i 0| := hle
          _ = 0 := by rw [← hp]; simp
      · calc _ ≤ |(d.getD i 0, xs.getD i 0).1 - d.getD i 0| := hall _ hp
          _ = 0 := by simp
    obtain ⟨j, hj1, hj2, hbj⟩ := mem_zip_getD d xs _ (hz ▸ hmem)
    have hfst : d.getD j 0 = d.getD i 0 := by
      have h0 := abs_eq_zero.mp hbest0
      rw [hbj] at h0
      linarith [h0]
    have hji : j = i := getD_inj_of_mono d hmono j i hj1 hi hfst
    rw [hbj, hji]

theorem resample_id (d xs : List ℚ) (hmono : d.Pairwise (· < ·))
    (hlen : xs.length = d.length) :
    resample_to_grid d (xs.map some) d Method.nearest = xs.map some := by
  simp only [resample_to_grid, pts_map_some]
  cases hn : d.length with
  | zero =>
    have hd : d = [] := List.length_eq_zero.mp hn
    have hx : xs = [] := List.length_eq_zero.mp (by omega)
    subst hd hx
    rfl
  | succ m =>
    have hne : ¬ (d.zip xs).length = 0 := by
      rw [List.length_zip, hlen, Nat.min_self]
      omega
    rw [if_neg hne]
    simp only [ite_self]
    apply List.ext_getElem
    · simp [hlen]
    · intro i h1 h2
      have hid : i < d.length := by simpa using h1
      have hix : i < xs.length := by omega
      rw [List.getElem_map, List.getElem_map]
      have := nearestEval_self d xs hmono hlen i hid
      rw [List.getD_eq_getElem d 0 hid, List.getD_eq_getElem xs 0 hix]
        at this
      simpa [methodEval] using this

theorem cleanValues_binary (xs : List ℚ)
    (hb : ∀ x ∈ xs, x = 0 ∨ x = 1) :
    cleanValues (-(999.25 : ℚ)) (xs.map some) = xs.map some := by
  rw [cleanValues, List.map_map]
  refine List.map_congr_left ?_
  intro x hx
  rcases hb x hx with rfl | rfl <;>
    simp [Function.comp_def] <;> norm_num [abs_of_nonneg]

/-! ## Claim C1: helper lemmas — masks and grouping -/

theorem decide_some_eq (x z : ℚ) :
    decide (some x = some z) = decide (x = z) := by
  by_cases h : x = z <;> simp [h]

theorem boolSelect_allTrue {α β : Type} (l : List α) (d : List β)
    (hlen : l.length = d.length) :
    boolSelect l (d.map (fun _ => true)) = l := by
  induction l generalizing d with
  | nil => rfl
  | cons a t ih =>
    cases d with
    | nil => simp at hlen
    | cons b td =>
      have hrec := ih td (by simpa using hlen)
      simp only [boolSelect] at hrec ⊢
      simp [List.filterMap_cons, hrec, -List.map_const']

theorem filterMap_id_map_some (xs : List ℚ) :
    (xs.map some).filterMap id = xs := by
  induction xs with
  | nil => rfl
  | cons x t ih => simp [List.filterMap_cons, ih]

theorem maskEq1 (z : ℚ) (d zs : List ℚ) (hlen : zs.length = d.length) :
    List.zipWith (fun b fv => b && decide (fv = some z))
      (d.map (fun _ => true)) (zs.map some) =
    zs.map (fun x => decide (x = z)) := by
  induction d generalizing zs with
  | nil =>
    cases zs with
    | nil => rfl
    | cons _ _ => simp at hlen
  | cons a t ih =>
    cases zs with
    | nil => rfl
    | cons x tx =>
      simp only [List.map_cons, List.zipWith_cons_cons]
      rw [ih tx (by simpa using hlen)]
      simp [decide_some_eq]

theorem maskEq2 (z n : ℚ) (zs ns : List ℚ) (hlen : ns.length = zs.length) :
    List.zipWith (fun b fv => b && decide (fv = some n))
      (zs.map (fun x => decide (x = z))) (ns.map some) =
    (zs.zip ns).map (fun t => decide (t.1 = z) && decide (t.2 = n)) := by
  induction zs generalizing ns with
  | nil => rfl
  | cons a t ih =>
    cases ns with
    | nil => rfl
    | cons b tb =>
      simp only [List.map_cons, List.zipWith_cons_cons, List.zip_cons_cons]
      rw [ih tb (by simpa using hlen)]
      simp [decide_some_eq]

theorem selGroup (z : ℚ) (zs ns : List ℚ) (hlen : ns.length = zs.length) :
    (boolSelect (ns.map some)
        (zs.map (fun x => decide (x = z)))).filterMap id =
    (zs.zip ns).filterMap (fun t => if t.1 = z then some t.2 else none) := by
  induction zs generalizing ns with
  | nil => simp [boolSelect]
  | cons a t ih =>
    cases ns with
    | nil => rfl
    | cons b tb =>
      have hrec := ih tb (by simpa using hlen)
      simp only [boolSelect] at hrec ⊢
      by_cases h : a = z <;>
        simp [List.zip_cons_cons, List.filterMap_cons, h, hrec]

theorem classSelect (z n : ℚ) (vals : List (Option ℚ)) (zs ns : List ℚ)
    (h1 : zs.length = vals.length) (h2 : ns.length = vals.length) :
    (boolSelect vals ((zs.zip ns).map
        (fun t => decide (t.1 = z) && decide (t.2 = n)))).filterMap id =
    classValues vals (zs.map some) (ns.map some) z n := by
  induction vals generalizing zs ns with
  | nil =>
    cases zs with
    | nil => rfl
    | cons _ _ => simp at h1
  | cons v tv ih =>
    cases zs with
    | nil => simp at h1
    | cons a tz =>
      cases ns with
      | nil => simp at h2
      | cons b tn =>
        have hrec := ih tz tn (by simpa using h1) (by simpa using h2)
        simp only [boolSelect, classValues] at hrec ⊢
        by_cases ha : a = z <;> by_cases hb : b = n <;>
          cases v <;>
          simp [List.zip_cons_cons, List.filterMap_cons, ha, hb, hrec]

theorem statGet_mean (d : List ℚ) (v : List (Option ℚ)) (m : List Bool) :
    statGet (computeStats d v m) "mean" =
      some (if 0 < ((boolSelect v m).filterMap id).length then
        some (((boolSelect v m).filterMap id).sum /
          ((boolSelect v m).filterMap id).length) else none) := by
  simp [computeStats, statGet]

theorem statGet_count (d : List ℚ) (v : List (Option ℚ)) (m : List Bool) :
    statGet (computeStats d v m) "count" =
      some (some (((boolSelect v m).filterMap id).length : ℚ)) := by
  simp [computeStats, statGet]

theorem keyFor_zero (nm : String) : keyFor nm none 0 = nm ++ "_" ++ "0" :=
  rfl

theorem keyFor_one (nm : String) : keyFor nm none 1 = nm ++ "_" ++ "1" :=
  rfl

theorem keyFor01 (nm : String) : keyFor nm none 0 ≠ keyFor nm none 1 := by
  rw [keyFor_zero, keyFor_one]
  intro h
  have hd := congrArg String.data h
  simp [String.data_append] at hd

theorem branchGet_map (uniq : List ℚ) (F : ℚ → GroupResult) (nm : String)
    (z : ℚ) (hz : z ∈ uniq)
    (hinj : ∀ a ∈ uniq, keyFor nm none a = keyFor nm none z → a = z) :
    branchGet (GroupResult.group (uniq.map
        (fun v => (keyFor nm none v, F v)))) (keyFor nm none z) =
      some (F z) := by
  induction uniq with
  | nil => cases hz
  | cons u t ih =>
    by_cases hu : keyFor nm none u = keyFor nm none z
    · have huz : u = z := hinj u (List.mem_cons_self u t) hu
      subst huz
      simp [branchGet, List.find?_cons, hu]
    · have hbeq : (keyFor nm none u == keyFor nm none z) = false := by
        simpa using hu
      rcases List.mem_cons.mp hz with rfl | hzt
      · exact absurd rfl hu
      · have hrec := ih hzt
          (fun a ha he => hinj a (List.mem_cons_of_mem _ ha) he)
        simp only [branchGet, List.map_cons, List.find?_cons, hbeq] at hrec ⊢
        exact hrec

theorem binary_key_inj (nm : String) (l : List ℚ)
    (hb : ∀ x ∈ l, x = 0 ∨ x = 1) (z : ℚ) (hz : z ∈ l) :
    ∀ a ∈ l, keyFor nm none a = keyFor nm none z → a = z := by
  intro a ha he
  rcases hb a ha with rfl | rfl <;> rcases hb z hz with rfl | rfl
  · rfl
  · exact absurd he (keyFor01 nm)
  · exact absurd he.symm (keyFor01 nm)
  · rfl

theorem twoLevelGroup (d : List ℚ) (vals : List (Option ℚ))
    (f1 f2 : PropRecord) (zs ns : List ℚ)
    (h1v : f1.values = zs.map some) (h2v : f2.values = ns.map some)
    (h1l : f1.labels = none) (h2l : f2.labels = none)
    (hzlen : zs.length = d.length) (hnlen : ns.length = d.length)
    (hvl : vals.length = d.length)
    (hzb : ∀ x ∈ zs, x = 0 ∨ x = 1) (hnb : ∀ x ∈ ns, x = 0 ∨ x = 1)
    (z n : ℚ) (hmem : (z, n) ∈ zs.zip ns) :
    ∃ s, leafStats2 (recursiveGroup d vals [f1, f2]
          (d.map (fun _ => true)))
        (keyFor f1.name none z) (keyFor f2.name none n) = some s ∧
      statGet s "mean" =
        some (if 0 < (classValues vals (zs.map some) (ns.map some)
            z n).length then
          some ((classValues vals (zs.map some) (ns.map some) z n).sum /
            (classValues vals (zs.map some) (ns.map some) z n).length)
        else none) ∧
      statGet s "count" =
        some (some (((classValues vals (zs.map some) (ns.map some)
          z n).length : ℚ))) := by
  have hzmem : z ∈ zs := (List.of_mem_zip hmem).1
  have hb1 : boolSelect f1.values (d.map (fun _ => true)) = zs.map some := by
    rw [h1v]
    exact boolSelect_allTrue _ _ (by simp [hzlen])
  have hU1eq : npUnique ((boolSelect f1.values
      (d.map (fun _ => true))).filterMap id) = npUnique zs := by
    rw [hb1, filterMap_id_map_some]
  have huniq1mem : z ∈ npUnique zs := (npUnique_mem z zs).mpr hzmem
  have hU1b : ∀ x ∈ npUnique zs, x = 0 ∨ x = 1 := by
    intro x hx
    exact hzb x ((npUnique_mem x zs).mp hx)
  have hne1 : (npUnique zs).isEmpty = false := by
    simpa using List.ne_nil_of_mem huniq1mem
  have hstep1 : recursiveGroup d vals [f1, f2] (d.map (fun _ => true)) =
      GroupResult.group ((npUnique zs).map (fun v =>
        (keyFor f1.name none v,
         recursiveGroup d vals [f2]
           (List.zipWith (fun b fv => b && decide (fv = some v))
             (d.map (fun _ => true)) f1.values)))) := by
    simp only [recursiveGroup, hU1eq, hne1, Bool.false_eq_true, if_false,
      h1l]
  have hmaskz : ∀ v : ℚ,
      List.zipWith (fun b fv => b && decide (fv = some v))
        (d.map (fun _ => true)) f1.values =
      zs.map (fun x => decide (x = v)) := by
    intro v
    rw [h1v]
    exact maskEq1 v d zs hzlen
  have hcls2 : ∀ v : ℚ, (boolSelect f2.values
      (zs.map (fun x => decide (x = v)))).filterMap id =
      (zs.zip ns).filterMap
        (fun t => if t.1 = v then some t.2 else none) := by
    intro v
    rw [h2v]
    exact selGroup v zs ns (by omega)
  have hnmem2 : n ∈ (zs.zip ns).filterMap
      (fun t => if t.1 = z then some t.2 else none) :=
    List.mem_filterMap.mpr ⟨(z, n), hmem, by simp⟩
  have hU2b : ∀ x ∈ npUnique ((zs.zip ns).filterMap
      (fun t => if t.1 = z then some t.2 else none)), x = 0 ∨ x = 1 := by
    intro x hx
    rcases List.mem_filterMap.mp ((npUnique_mem _ _).mp hx) with ⟨t, ht, hteq⟩
    have hx2 : t.2 = x := by
      by_cases h : t.1 = z <;> simp [h] at hteq
      exact hteq
    rw [← hx2]
    exact hnb t.2 (by
      rcases t with ⟨t1, t2⟩
      exact (List.of_mem_zip ht).2)
  have hne2 : (npUnique ((zs.zip ns).filterMap
      (fun t => if t.1 = z then some t.2 else none))).isEmpty = false := by
    simpa using List.ne_nil_of_mem ((npUnique_mem _ _).mpr hnmem2)
  have hmask2 : ∀ v : ℚ,
      List.zipWith (fun b fv => b && decide (fv = some v))
        (zs.map (fun x => decide (x = z))) f2.values =
      (zs.zip ns).map
        (fun t => decide (t.1 = z) && decide (t.2 = v)) := by
    intro v
    rw [h2v]
    exact maskEq2 z v zs ns (by omega)
  have hstep2 : recursiveGroup d vals [f2]
      (zs.map (fun x => decide (x = z))) =
      GroupResult.group ((npUnique ((zs.zip ns).filterMap
          (fun t => if t.1 = z then some t.2 else none))).map (fun v =>
        (keyFor f2.name none v,
         GroupResult.stats (computeStats d vals ((zs.zip ns).map
           (fun t => decide (t.1 = z) && decide (t.2 = v))))))) := by
    simp only [recursiveGroup, hcls2 z, hne2, Bool.false_eq_true, if_false,
      h2l]
    refine congrArg GroupResult.group (List.map_congr_left ?_)
    intro v _
    rw [hmask2 v]
  have hb1get : branchGet (recursiveGroup d vals [f1, f2]
      (d.map (fun _ => true))) (keyFor f1.name none z) =
      some (recursiveGroup d vals [f2]
        (zs.map (fun x => decide (x = z)))) := by
    rw [hstep1]
    have h := branchGet_map (npUnique zs)
      (fun v => recursiveGroup d vals [f2]
        (List.zipWith (fun b fv => b && decide (fv = some v))
          (d.map (fun _ => true)) f1.values))
      f1.name z huniq1mem
      (binary_key_inj f1.name (npUnique zs) hU1b z huniq1mem)
    simp only [] at h
    rw [h, hmaskz z]
  have hb2get : branchGet (recursiveGroup d vals [f2]
      (zs.map (fun x => decide (x = z)))) (keyFor f2.name none n) =
      some (GroupResult.stats (computeStats d vals ((zs.zip ns).map
        (fun t => decide (t.1 = z) && decide (t.2 = n))))) := by
    rw [hstep2]
    have h2 := branchGet_map
      (npUnique ((zs.zip ns).filterMap
        (fun t => if t.1 = z then some t.2 else none)))
      (fun v => GroupResult.stats (computeStats d vals ((zs.zip ns).map
        (fun t => decide (t.1 = z) && decide (t.2 = v)))))
      f2.name n ((npUnique_mem _ _).mpr hnmem2)
      (binary_key_inj f2.name _ hU2b n ((npUnique_mem _ _).mpr hnmem2))
    simp only [] at h2
    rw [h2]
  refine ⟨computeStats d vals ((zs.zip ns).map
    (fun t => decide (t.1 = z) && decide (t.2 = n))), ?_, ?_, ?_⟩
  · simp only [leafStats2, hb1get, hb2get]
  · rw [statGet_mean,
      classSelect z n vals zs ns (by omega) (by omega)]
  · rw [statGet_count,
      classSelect z n vals zs ns (by omega) (by omega)]

/-- C1: for a Property with no prior secondaries whose owning well holds two
discrete, label-free filter properties on the property's own strictly
increasing depth grid, with filter values in {0,1}, the chained
filter-filter-sums_avg pipeline succeeds and produces a two-level nested
result whose leaf group for codes (z, n) carries a mean equal to the
arithmetic mean of the primary's valid (non-NaN) values over exactly the
samples where the first filter equals z and the second equals n (exact in
rationals, hence within 1e-9), and a count equal to exactly the number of
such valid samples. -/
theorem claim1_filter_chain_groups
    (p : Property) (w : Well) (nz nn : String) (zp np : PropRecord)
    (zs ns : List ℚ)
    (hpw : p.parentWell = some w)
    (hzp : w.getProp nz = some zp) (hzt : zp.ptype = "discrete")
    (hnp : w.getProp nn = some np) (hnt : np.ptype = "discrete")
    (hzd : zp.depth = p.depth) (hnd : np.depth = p.depth)
    (hzl : zp.labels = none) (hnl : np.labels = none)
    (hzv : zp.values = zs.map some) (hnv : np.values = ns.map some)
    (hzlen : zs.length = p.depth.length)
    (hnlen : ns.length = p.depth.length)
    (hvl : p.values.length = p.depth.length)
    (hmono : p.depth.Pairwise (· < ·))
    (hsec : p.secondaries = [])
    (hpv : cleanValues (-(999.25 : ℚ)) p.values = p.values)
    (hzb : ∀ x ∈ zs, x = 0 ∨ x = 1) (hnb : ∀ x ∈ ns, x = 0 ∨ x = 1) :
    ∃ q1 q2, Property.filter p nz = Except.ok q1 ∧
      Property.filter q1 nn = Except.ok q2 ∧
      ∀ z n : ℚ, (z, n) ∈ zs.zip ns →
        ∃ s, leafStats2 (Property.sums_avg q2)
            (keyFor zp.name none z) (keyFor np.name none n) = some s ∧
          statGet s "mean" =
            some (if 0 < (classValues p.values zp.values np.values
                z n).length then
              some ((classValues p.values zp.values np.values z n).sum /
                (classValues p.values zp.values np.values z n).length)
            else none) ∧
          statGet s "count" =
            some (some (((classValues p.values zp.values np.values
              z n).length : ℚ))) := by
  have hres1 : resample_to_grid zp.depth zp.values p.depth Method.nearest =
      zs.map some := by
    rw [hzd, hzv]
    exact resample_id p.depth zs hmono hzlen
  have hres2 : resample_to_grid np.depth np.values p.depth Method.nearest =
      ns.map some := by
    rw [hnd, hnv]
    exact resample_id p.depth ns hmono hnlen
  have hcz : cleanValues (-(999.25 : ℚ)) (zs.map some) = zs.map some :=
    cleanValues_binary zs hzb
  have hcn : cleanValues (-(999.25 : ℚ)) (ns.map some) = ns.map some :=
    cleanValues_binary ns hnb
  refine ⟨withSecondaries p p.values [secOf zp p.depth (zs.map some)],
    withSecondaries p p.values
      [secOf zp p.depth (zs.map some), secOf np p.depth (ns.map some)],
    ?_, ?_, ?_⟩
  · simp only [Property.filter, hpw, hzp, hzt, ne_eq, not_true_eq_false,
      if_false]
    rw [hres1, hcz, hpv, hsec]
    simp only [withSecondaries, secOf, hpw, hzt, List.nil_append]
  · simp only [Property.filter, withSecondaries, hpw, hnp, hnt, ne_eq,
      not_true_eq_false, if_false]
    rw [hres2, hcn, hpv]
    simp only [secOf, hnt, List.cons_append, List.nil_append]
  · intro z n hmem
    have hsums : Property.sums_avg (withSecondaries p p.values
        [secOf zp p.depth (zs.map some), secOf np p.depth (ns.map some)]) =
        recursiveGroup p.depth p.values
          [secOf zp p.depth (zs.map some), secOf np p.depth (ns.map some)]
          (p.depth.map (fun _ => true)) := rfl
    rw [hsums, hzv, hnv]
    exact twoLevelGroup p.depth p.values (secOf zp p.depth (zs.map some))
      (secOf np p.depth (ns.map some)) zs ns rfl rfl hzl hnl
      hzlen hnlen hvl hzb hnb z n hmem

/-- Witness for C1 on the fixture well: porosity [1,2,5,10] filtered by Zone
[0,0,1,1] and NTG [0,1,0,1] on the grid [0,1,2,3]. -/
theorem claim1_witness :
    phieProp.parentWell = some wellEx ∧
    (∃ q1 q2, Property.filter phieProp "Zone" = Except.ok q1 ∧
      Property.filter q1 "NTG" = Except.ok q2 ∧
      ∀ z n : ℚ, (z, n) ∈ ([0, 0, 1, 1] : List ℚ).zip [0, 1, 0, 1] →
        ∃ s, leafStats2 (Property.sums_avg q2)
            (keyFor zoneRec.name none z) (keyFor ntgRec.name none n) =
            some s ∧
          statGet s "mean" =
            some (if 0 < (classValues phieProp.values zoneRec.values
                ntgRec.values z n).length then
              some ((classValues phieProp.values zoneRec.values
                  ntgRec.values z n).sum /
                (classValues phieProp.values zoneRec.values
                  ntgRec.values z n).length)
            else none) ∧
          statGet s "count" =
            some (some (((classValues phieProp.values zoneRec.values
              ntgRec.values z n).length : ℚ)))) := by
  have hzp : wellEx.getProp "Zone" = some zoneRec := by
    simp [Well.getProp, lookupName, wellEx]
  have hnp : wellEx.getProp "NTG" = some ntgRec := by
    simp [Well.getProp, lookupName, wellEx]
  have hpv : cleanValues (-(999.25 : ℚ)) phieProp.values =
      phieProp.values := by
    show cleanValues (-(999.25 : ℚ)) [some 1, some 2, some 5, some 10] =
      [some (1 : ℚ), some 2, some 5, some 10]
    simp [cleanValues]
    norm_num [abs_of_nonneg]
  refine ⟨rfl, claim1_filter_chain_groups phieProp wellEx "Zone" "NTG"
    zoneRec ntgRec [0, 0, 1, 1] [0, 1, 0, 1] rfl hzp rfl hnp rfl rfl rfl
    rfl rfl rfl rfl rfl rfl rfl ?_ rfl hpv ?_ ?_⟩
  · decide
  · decide
  · decide

end WellLog

